import Mathlib

/-!
Verification development for the `gugle-command` command-tree dispatcher
(`src/index.ts`).  The TypeScript source is shallowly embedded: classes become
inductive types, methods become functions, the mutable token array and the
side-effecting `CommandSource` callbacks become explicit state threading and an
event trace.  JavaScript numbers are modelled as exact values (rationals plus
the `NaN` and `Infinity` sentinels); IEEE rounding is not modelled, which is
exact on every value appearing in the theorems below.
-/

/-! ## JavaScript number model

`Arguments.NUMBER` calls the JS builtin `Number(arg)`.  Its behaviour on
strings is the ECMAScript `StringNumericLiteral` grammar: trim whitespace,
empty means `0`, otherwise a signed decimal literal (possibly `Infinity`) or an
unsigned hex / octal / binary literal; anything else is `NaN`. -/

/-- The mathematical value of a JS number: the `NaN` sentinel, a signed
infinity, or a finite value (modelled exactly as a rational). -/
inductive JsNum where
  | nan : JsNum
  | inf (neg : Bool) : JsNum
  | val (q : ℚ) : JsNum
deriving DecidableEq, Repr

/-- An unsigned numeric magnitude before the sign is applied. -/
inductive JsUnsigned where
  | infinite : JsUnsigned
  | fin (q : ℚ) : JsUnsigned
deriving DecidableEq, Repr

/-- A decoded JS value as produced by the three `Arguments` decoders. -/
inductive JsValue where
  | num (n : JsNum) : JsValue
  | bool (b : Bool) : JsValue
  | str (s : String) : JsValue
deriving DecidableEq, Repr

instance {ε α : Type} [DecidableEq ε] [DecidableEq α] : DecidableEq (Except ε α)
  | .error e, .error f => if h : e = f then .isTrue (by rw [h]) else .isFalse (by simp [h])
  | .error _, .ok _ => .isFalse (by simp)
  | .ok _, .error _ => .isFalse (by simp)
  | .ok a, .ok b => if h : a = b then .isTrue (by rw [h]) else .isFalse (by simp [h])

def isDecDigit (c : Char) : Bool := 48 ≤ c.toNat && c.toNat ≤ 57

def isHexDigit (c : Char) : Bool :=
  isDecDigit c || (97 ≤ c.toNat && c.toNat ≤ 102) || (65 ≤ c.toNat && c.toNat ≤ 70)

def isOctDigit (c : Char) : Bool := 48 ≤ c.toNat && c.toNat ≤ 55

def isBinDigit (c : Char) : Bool := c.toNat = 48 || c.toNat = 49

def decDigitVal (c : Char) : Nat := c.toNat - 48

def hexDigitVal (c : Char) : Nat :=
  if 97 ≤ c.toNat then c.toNat - 87 else if 65 ≤ c.toNat then c.toNat - 55 else c.toNat - 48

def digitsVal (base : Nat) (dv : Char → Nat) (cs : List Char) : Nat :=
  cs.foldl (fun a c => base * a + dv c) 0

/-- The characters ECMAScript `ToNumber` trims from both ends of a string. -/
def isJsWhitespace (c : Char) : Bool :=
  c == ' ' || c == '\t' || c == '\n' || c == '\r' || c == '\x0b' || c == '\x0c' ||
  c == '\u00A0' || c == '\uFEFF' || c == '\u2028' || c == '\u2029'

def trimJsWs (cs : List Char) : List Char :=
  ((cs.dropWhile isJsWhitespace).reverse.dropWhile isJsWhitespace).reverse

/-- An optional `ExponentPart` (`e`/`E`, optional sign, decimal digits); the
empty string stands for an absent exponent, i.e. exponent `0`. -/
def parseOptExponent : List Char → Option Int
  | [] => some 0
  | c :: rest =>
    if c = 'e' ∨ c = 'E' then
      match rest with
      | '+' :: ds => if ds ≠ [] ∧ ds.all isDecDigit then some ((digitsVal 10 decDigitVal ds : Nat) : Int) else none
      | '-' :: ds => if ds ≠ [] ∧ ds.all isDecDigit then some (-((digitsVal 10 decDigitVal ds : Nat) : Int)) else none
      | ds => if ds ≠ [] ∧ ds.all isDecDigit then some ((digitsVal 10 decDigitVal ds : Nat) : Int) else none
    else none

/-- The exact mathematical value of the decimal literal with integer digits
`ds`, fraction digits `fd` and decimal exponent `e`:
`digits(ds ++ fd) * 10 ^ (e - |fd|)`, built from `Nat` arithmetic and `mkRat`
only. -/
def decimalValue (ds fd : List Char) (e : Int) : ℚ :=
  let d : Nat := digitsVal 10 decDigitVal (ds ++ fd)
  let sc : Int := e - fd.length
  if 0 ≤ sc then ((d * 10 ^ sc.toNat : Nat) : ℚ) else mkRat d (10 ^ (-sc).toNat)

/-- ECMAScript `StrUnsignedDecimalLiteral`: `Infinity`, digits with an optional
fraction and exponent, or a fraction-only literal like `.5`. -/
def parseStrUnsignedDecimal (cs : List Char) : Option JsUnsigned :=
  if cs = "Infinity".toList then some .infinite
  else
    let ds := cs.takeWhile isDecDigit
    let rest := cs.dropWhile isDecDigit
    if ds.isEmpty then
      match rest with
      | '.' :: fs =>
        let fd := fs.takeWhile isDecDigit
        if fd.isEmpty then none
        else (parseOptExponent (fs.dropWhile isDecDigit)).map fun e =>
          .fin (decimalValue [] fd e)
      | _ => none
    else
      match rest with
      | '.' :: fs =>
        (parseOptExponent (fs.dropWhile isDecDigit)).map fun e =>
          .fin (decimalValue ds (fs.takeWhile isDecDigit) e)
      | r =>
        (parseOptExponent r).map fun e =>
          .fin (decimalValue ds [] e)

/-- Strip an optional leading sign, returning (isNegative, remainder). -/
def splitSign : List Char → Bool × List Char
  | [] => (false, [])
  | c :: r => if c = '+' then (false, r) else if c = '-' then (true, r) else (false, c :: r)

def applySign (neg : Bool) : JsUnsigned → JsNum
  | .infinite => .inf neg
  | .fin q => .val (if neg then -q else q)

/-- ECMAScript `StrDecimalLiteral`: optional sign then an unsigned decimal. -/
def parseStrDecimalLiteral (cs : List Char) : Option JsNum :=
  let s := splitSign cs
  (parseStrUnsignedDecimal s.2).map (applySign s.1)

/-- ECMAScript `NonDecimalIntegerLiteral`: `0x`/`0o`/`0b` literals (no sign). -/
def parseNonDecimal (cs : List Char) : Option JsNum :=
  match cs with
  | c0 :: x :: ds =>
    if c0 = '0' then
      if x = 'x' ∨ x = 'X' then
        if ds ≠ [] ∧ ds.all isHexDigit then some (.val (digitsVal 16 hexDigitVal ds : ℚ)) else none
      else if x = 'o' ∨ x = 'O' then
        if ds ≠ [] ∧ ds.all isOctDigit then some (.val (digitsVal 8 decDigitVal ds : ℚ)) else none
      else if x = 'b' ∨ x = 'B' then
        if ds ≠ [] ∧ ds.all isBinDigit then some (.val (digitsVal 2 decDigitVal ds : ℚ)) else none
      else none
    else none
  | _ => none

/-- The JS builtin `Number(s)` on a string argument (ECMAScript `ToNumber`). -/
def jsToNumber (s : String) : JsNum :=
  let cs := trimJsWs s.toList
  if cs.isEmpty then .val 0
  else
    match parseNonDecimal cs with
    | some n => n
    | none =>
      match parseStrDecimalLiteral cs with
      | some n => n
      | none => .nan

/-! ## The `Arguments` decoders (src/index.ts lines 12–49)

A throwing TS decoder `(arg: string) => T` becomes `String → Except String
JsValue`; `Except.error msg` models `throw new Error(msg)`. -/

namespace Arguments

/-- `Arguments.BOOLEAN`: `'true'`/`'false'` (exact case) or throw. -/
def BOOLEAN (arg : String) : Except String JsValue :=
  if arg = "true" then .ok (.bool true)
  else if arg = "false" then .ok (.bool false)
  else .error ("Invalid boolean " ++ arg)

/-- `Arguments.NUMBER`: `const num = Number(arg); if (isNaN(num)) throw ...`. -/
def NUMBER (arg : String) : Except String JsValue :=
  let num := jsToNumber arg
  if num = .nan then .error ("Invalid number " ++ arg)
  else .ok (.num num)

/-- `Arguments.STRING`: the identity decoder, never throws. -/
def STRING (arg : String) : Except String JsValue := .ok (.str arg)

end Arguments

/-! ## Command sources, events, and the command tree (src/index.ts lines 1–6, 51–265)

The `CommandSource` callbacks `fail`/`success` and handler invocations are
side effects; the embedding records them in an event trace.  Handlers
(`exec: (source, ...args) => void`) are opaque to the engine, so each handler
is represented by a numeric identifier and its invocation by an
`Event.invoked` entry carrying the decoded argument list; in particular a
handler never emits `success`/`fail` events itself (the hypotheses of the
claims below assume exactly that of the real handlers). -/

/-- The external `CommandSource` collaborator: a name and a permission
predicate.  Its `success`/`fail` channels are modelled by the event trace. -/
structure CommandSource where
  name : String
  hasPermission : String → Bool

/-- One observable side effect of the engine: a `source.fail(msg)` call, a
`source.success(msg)` call, or the invocation of the handler with identifier
`handler` on the decoded argument list `args`. -/
inductive Event where
  | fail (msg : String) : Event
  | success (msg : String) : Event
  | invoked (handler : Nat) (args : List JsValue) : Event
deriving DecidableEq, Repr

def Event.isInvoked : Event → Bool
  | .invoked _ _ => true
  | _ => false

/-- The variant tag of a command node: the plain base class `CommandNode`
(used for namespace roots), `LiteralCommandNode` with its name, or
`ArgumentCommandNode` with its name and decoder. -/
inductive NodeKind where
  | plain : NodeKind
  | literal (name : String) : NodeKind
  | argument (name : String) (decoder : String → Except String JsValue) : NodeKind

/-- A command tree node: its variant tag, its `children` array, its optional
handler (`exec`, identified by number) and its optional `permission` string
(`undefined` becomes `none`). -/
inductive CommandNode where
  | mk (kind : NodeKind) (children : List CommandNode) (exec : Option Nat)
      (permission : Option String) : CommandNode

def CommandNode.kind : CommandNode → NodeKind
  | .mk k _ _ _ => k

def CommandNode.children : CommandNode → List CommandNode
  | .mk _ cs _ _ => cs

def CommandNode.exec : CommandNode → Option Nat
  | .mk _ _ e _ => e

def CommandNode.permission : CommandNode → Option String
  | .mk _ _ _ p => p

/-- `new CommandNode()`: no children, no handler, no permission. -/
def CommandNode.new : CommandNode := .mk .plain [] none none

/-- `node instanceof LiteralCommandNode` (the source's `isLiteral` method). -/
def CommandNode.isLiteral : CommandNode → Bool
  | .mk (.literal _) _ _ _ => true
  | _ => false

/-- `node instanceof ArgumentCommandNode`. -/
def CommandNode.isArgument : CommandNode → Bool
  | .mk (.argument _ _) _ _ _ => true
  | _ => false

/-- The name of a literal node (its `toString()`), if the node is one. -/
def CommandNode.litName : CommandNode → Option String
  | .mk (.literal n) _ _ _ => some n
  | _ => none

/-- `ArgumentCommandNode.decode`: apply the stored decoder.  Only argument
nodes carry a decoder; the other variants never reach the decode call in the
source, and the fallback branch is unreachable in every theorem below. -/
def CommandNode.decode : CommandNode → String → Except String JsValue
  | .mk (.argument _ dec) _ _ _, arg => dec arg
  | _, arg => .error arg

/-- `require(permission)`: set the permission, return the node. -/
def CommandNode.require (node : CommandNode) (permission : String) : CommandNode :=
  .mk node.kind node.children node.exec (some permission)

/-- `execute(exec)` on a node: set the handler, return the node. -/
def CommandNode.execute (node : CommandNode) (handler : Nat) : CommandNode :=
  .mk node.kind node.children (some handler) node.permission

/-- The comparator of `then` as a Lean relation: `childLe a b` is true iff the
source comparator returns `-1` or `0` on `(a, b)`, i.e. unless `a` is an
argument node and `b` a literal node. -/
def childLe (a b : CommandNode) : Bool := !(a.isArgument && b.isLiteral)

/-- Stable insertion used to model `Array.prototype.sort`: place `x` before
the first element it may precede, keeping earlier elements of equal rank
first. -/
def sortInsert (x : CommandNode) : List CommandNode → List CommandNode
  | [] => [x]
  | y :: ys => if childLe x y then x :: y :: ys else y :: sortInsert x ys

/-- A stable sort by the comparator of `then`.  ECMAScript requires
`Array.prototype.sort` to be stable, and on arrays of literal and argument
nodes the comparator of `then` is a consistent total preorder, so every
stable sort produces the same array; insertion sort realises it. -/
def sortChildren : List CommandNode → List CommandNode
  | [] => []
  | x :: xs => sortInsert x (sortChildren xs)

/-- `then(node)`: push the child, re-sort the children so literal nodes come
before argument nodes, and return the (updated) parent for chaining. -/
def CommandNode.thenNode (parent child : CommandNode) : CommandNode :=
  .mk parent.kind (sortChildren (parent.children ++ [child])) parent.exec parent.permission

/-- Attach a list of children by successive `then` calls. -/
def CommandNode.thenAll (parent : CommandNode) (cs : List CommandNode) : CommandNode :=
  cs.foldl CommandNode.thenNode parent

/-- The guard `this.permission && !source.hasPermission(this.permission)`:
`undefined` and the empty string are falsy, so only a nonempty permission is
checked. -/
def permissionGate (perm : Option String) (source : CommandSource) : Bool :=
  match perm with
  | none => false
  | some p => !(p == "") && !source.hasPermission p

/-- The result of `parse` (and of the dispatch loop): the returned boolean,
the state of the (mutated) token array on return, and the trace of events in
order. -/
structure ParseResult where
  ok : Bool
  tokens : List String
  events : List Event
deriving DecidableEq, Repr

/-! ## The recursive descent parser (src/index.ts lines 129–178)

`parse` pops tokens from the end of the array (`nodes.pop()`), so the token
list is threaded through and returned.  The recursion consumes exactly one
token per level; `parseFuel` makes this structural by recursing on a fuel
counter that `CommandNode.parse` instantiates with the token count, which the
invariant `fuel = nodes.length` keeps exact, so the fuel-exhausted branch is
unreachable from `CommandNode.parse`. -/

/-- The child loop of `parse` (source lines 157–177), parameterised by the
continuation `recur` used for the recursive `child.parse(nodes, ...)` calls:
skip literal children whose name differs from the popped token, descend into
the first literal child whose name matches, and otherwise descend into the
first argument child, failing with the decoder's message if it throws.
Children that are neither literal nor argument nodes match no `instanceof`
test and are skipped.  Falling off the loop returns `false` without any
`fail` call. -/
def parseChildrenGo (recur : CommandNode → List String → List JsValue → ParseResult) :
    List CommandNode → String → List String → List JsValue → ParseResult
  | [], _, nodes, _ => ⟨false, nodes, []⟩
  | child :: rest, nodeStr, nodes, args =>
    match child.kind with
    | .literal name =>
      if name = nodeStr then recur child nodes args
      else parseChildrenGo recur rest nodeStr nodes args
    | .argument _ dec =>
      match dec nodeStr with
      | .ok v => recur child nodes (args ++ [v])
      | .error msg => ⟨false, nodes, [.fail msg]⟩
    | .plain => parseChildrenGo recur rest nodeStr nodes args

/-- One level of `parse(nodes, source, ...args)`, parameterised by the
continuation `recur` used for recursive descent into children.  Mirrors the
source line by line: permission gate; empty token array (invoke the handler
or fail); pop the last token; fail when the pop yields `undefined` or the
node has no children; otherwise run the child loop. -/
def parseStep (source : CommandSource)
    (recur : CommandNode → List String → List JsValue → ParseResult)
    (node : CommandNode) (nodes : List String) (args : List JsValue) : ParseResult :=
  if permissionGate node.permission source then
    ⟨false, nodes, [.fail "Permission denied"]⟩
  else if nodes.isEmpty then
    match node.exec with
    | some h => ⟨true, nodes, [.invoked h args]⟩
    | none => ⟨false, nodes, [.fail "Invalid command"]⟩
  else
    match nodes.getLast? with
    | none => ⟨false, nodes.dropLast, [.fail "Invalid command"]⟩
    | some nodeStr =>
      if node.children.isEmpty then ⟨false, nodes.dropLast, [.fail "Invalid command"]⟩
      else parseChildrenGo recur node.children nodeStr nodes.dropLast args

/-- `parse` with an explicit fuel bound on the recursion depth.  With fuel
`0` the continuation is a stub that is unreachable whenever the fuel is at
least the token count, because each level pops one token before recursing. -/
def parseFuel (source : CommandSource) :
    Nat → CommandNode → List String → List JsValue → ParseResult
  | 0 => parseStep source (fun _ nodes _ => ⟨false, nodes, []⟩)
  | fuel + 1 => parseStep source (parseFuel source fuel)

/-- `CommandNode.parse`: the fuel is the token count, which is exact since
each recursion level pops exactly one token. -/
def CommandNode.parse (node : CommandNode) (nodes : List String)
    (source : CommandSource) (args : List JsValue) : ParseResult :=
  parseFuel source nodes.length node nodes args

/-! ## The command manager (src/index.ts lines 271–342)

`roots` is a JS `Map`, modelled as an association list in insertion order:
`set` of a present key replaces the value in place, `set` of an absent key
appends, `delete` removes, and iteration follows the list order. -/

def rootsHas (roots : List (String × CommandNode)) (ns : String) : Bool :=
  roots.any (fun kv => kv.1 == ns)

def rootsSet (roots : List (String × CommandNode)) (ns : String) (node : CommandNode) :
    List (String × CommandNode) :=
  if rootsHas roots ns then
    roots.map (fun kv => if kv.1 == ns then (ns, node) else kv)
  else roots ++ [(ns, node)]

def rootsGet (roots : List (String × CommandNode)) (ns : String) : Option CommandNode :=
  (roots.find? (fun kv => kv.1 == ns)).map (fun kv => kv.2)

def rootsDelete (roots : List (String × CommandNode)) (ns : String) :
    List (String × CommandNode) :=
  roots.filter (fun kv => !(kv.1 == ns))

/-- The manager: the configured command prefix string and the namespace
roots. -/
structure CommandManager where
  prefixStr : String
  roots : List (String × CommandNode)

/-- `new CommandManager(prefix)`; the TS parameter defaults to `'/'`, which
callers below pass explicitly. -/
def CommandManager.create (prefixStr : String) : CommandManager :=
  ⟨prefixStr, []⟩

/-- `CommandManager.literal(name)`. -/
def CommandManager.literal (name : String) : CommandNode :=
  .mk (.literal name) [] none none

/-- `CommandManager.argument(name, decorator)`. -/
def CommandManager.argument (name : String) (decorator : String → Except String JsValue) :
    CommandNode :=
  .mk (.argument name decorator) [] none none

/-- `register(namespace, node)`: create the namespace root if absent, then
attach `node` to it via `then` (mutating the stored root node). -/
def CommandManager.register (m : CommandManager) (ns : String) (node : CommandNode) :
    CommandManager :=
  let roots := if rootsHas m.roots ns then m.roots else rootsSet m.roots ns CommandNode.new
  match rootsGet roots ns with
  | some root => ⟨m.prefixStr, rootsSet roots ns (root.thenNode node)⟩
  | none => ⟨m.prefixStr, roots⟩

/-- `remove(namespace)`. -/
def CommandManager.remove (m : CommandManager) (ns : String) : CommandManager :=
  ⟨m.prefixStr, rootsDelete m.roots ns⟩

/-- JS `String.prototype.startsWith`, on the character lists. -/
def jsStartsWith (s pre : String) : Bool := pre.toList.isPrefixOf s.toList

/-- JS `String.prototype.split` with a single-character separator: splitting
the empty string yields `[""]`, and consecutive separators yield empty
segments. -/
def splitOnChar (sep : Char) : List Char → List (List Char)
  | [] => [[]]
  | c :: cs =>
    let r := splitOnChar sep cs
    if c = sep then [] :: r
    else
      match r with
      | [] => [[c]]
      | h :: t => (c :: h) :: t

def jsSplitSpace (s : String) : List String :=
  (splitOnChar ' ' s.toList).map (fun l => String.mk l)

/-- The namespace loop of `execute` (source lines 336–339).  Crucially,
`nodes.reverse()` reverses the SAME array in place and returns it: every
namespace attempt shares one token array, so the tokens a failed attempt
popped stay consumed for the next namespace, which re-reverses whatever is
left.  The threaded `tokens` field models that shared array. -/
def executeLoop (roots : List (String × CommandNode)) (nodes : List String)
    (source : CommandSource) : ParseResult :=
  match roots with
  | [] => ⟨false, nodes, []⟩
  | (_, root) :: rest =>
    let rev := nodes.reverse
    let r := root.parse rev source []
    if r.ok then ⟨true, r.tokens, r.events⟩
    else
      let r2 := executeLoop rest r.tokens source
      ⟨r2.ok, r2.tokens, r.events ++ r2.events⟩

/-- `execute(source, commands)`: check the prefix, strip it, split on spaces,
try each namespace root in insertion order on the shared token array, and
report `Invalid command` if none succeeded.  The returned manager is the
post-state of `this` (never written by `execute`); the returned list is the
event trace. -/
def CommandManager.execute (m : CommandManager) (source : CommandSource)
    (commands : String) : CommandManager × List Event :=
  if !(jsStartsWith commands m.prefixStr) then
    (m, [.fail "Invalid command"])
  else
    let body := String.mk (commands.toList.drop m.prefixStr.toList.length)
    let nodes := jsSplitSpace body
    let r := executeLoop m.roots nodes source
    if r.ok then (m, r.events) else (m, r.events ++ [.fail "Invalid command"])

/-! ## Spec-side definition of a numeric literal

The specification describes `NUMBER` as accepting "any token parseable as a
numeric literal (integer or floating point, optional sign)".  The following
definition renders exactly those words, to be compared against the embedded
`Number` conversion: an optional sign, then either a digit run, a digit run
with a decimal point and optional fraction digits, or a decimal point with
fraction digits. -/

def specUnsignedNumericLiteral (cs : List Char) : Bool :=
  let ds := cs.takeWhile isDecDigit
  let rest := cs.dropWhile isDecDigit
  if ds.isEmpty then
    match rest with
    | '.' :: fs => !fs.isEmpty && fs.all isDecDigit
    | _ => false
  else
    match rest with
    | [] => true
    | '.' :: fs => fs.all isDecDigit
    | _ => false

/-- A numeric literal in the spec's sense: integer or floating point, with an
optional leading sign. -/
def specNumericLiteral (s : String) : Bool :=
  specUnsignedNumericLiteral (splitSign s.toList).2

/-! ## Supporting lemmas -/

lemma dropWhile_eq_self_of {α : Type} {p : α → Bool} :
    ∀ {l : List α}, (∀ c ∈ l, p c = false) → l.dropWhile p = l
  | [], _ => rfl
  | c :: cs, h => by
    rw [List.dropWhile_cons, h c (by simp)]
    simp

lemma trimJsWs_eq_self {cs : List Char} (h : ∀ c ∈ cs, isJsWhitespace c = false) :
    trimJsWs cs = cs := by
  unfold trimJsWs
  rw [dropWhile_eq_self_of h, dropWhile_eq_self_of (by simpa using h), List.reverse_reverse]

lemma not_ws_of_litChar {c : Char}
    (h : isDecDigit c = true ∨ c = '.' ∨ c = '+' ∨ c = '-') :
    isJsWhitespace c = false := by
  rcases h with h | rfl | rfl | rfl
  · simp only [isJsWhitespace, Bool.or_eq_false_iff, beq_eq_false_iff_ne, ne_eq]
    refine ⟨⟨⟨⟨⟨⟨⟨⟨⟨?_, ?_⟩, ?_⟩, ?_⟩, ?_⟩, ?_⟩, ?_⟩, ?_⟩, ?_⟩, ?_⟩ <;>
      (rintro rfl; exact absurd h (by decide))
  · decide
  · decide
  · decide

lemma specUnsigned_chars {cs : List Char} (h : specUnsignedNumericLiteral cs = true) :
    ∀ c ∈ cs, isDecDigit c = true ∨ c = '.' := by
  intro c hc
  rw [← List.takeWhile_append_dropWhile (p := isDecDigit) (l := cs)] at hc
  rcases List.mem_append.1 hc with h1 | h2
  · exact Or.inl (List.mem_takeWhile_imp h1)
  · simp only [specUnsignedNumericLiteral] at h
    split at h
    · -- takeWhile empty
      split at h
      · next fs heq =>
        rw [heq] at h2
        rcases List.mem_cons.1 h2 with rfl | hfs
        · exact Or.inr rfl
        · simp only [Bool.and_eq_true, Bool.not_eq_true', List.all_eq_true] at h
          exact Or.inl (h.2 _ hfs)
      · exact absurd h (by simp)
    · split at h
      · next heq => rw [heq] at h2; exact absurd h2 (by simp)
      · next fs heq =>
        rw [heq] at h2
        rcases List.mem_cons.1 h2 with rfl | hfs
        · exact Or.inr rfl
        · simp only [List.all_eq_true] at h
          exact Or.inl (h _ hfs)
      · exact absurd h (by simp)

lemma specUnsigned_parse {cs : List Char} (h : specUnsignedNumericLiteral cs = true) :
    ∃ q : ℚ, parseStrUnsignedDecimal cs = some (.fin q) := by
  have hinf : cs ≠ "Infinity".toList := by
    rintro rfl
    exact absurd h (by decide)
  unfold parseStrUnsignedDecimal
  rw [if_neg hinf]
  simp only [specUnsignedNumericLiteral] at h
  split at h
  · -- takeWhile empty: fraction-only literal
    next hds =>
    split at h
    · next fs heq =>
      simp only [Bool.and_eq_true, Bool.not_eq_true', List.all_eq_true] at h
      have htake : fs.takeWhile isDecDigit = fs := List.takeWhile_eq_self_iff.2 h.2
      have hdrop : fs.dropWhile isDecDigit = [] := List.dropWhile_eq_nil_iff.2 h.2
      rw [heq]
      simp only [hds, if_true, htake, hdrop, h.1, parseOptExponent, Option.map_some']
      exact ⟨_, rfl⟩
    · exact absurd h (by simp)
  · -- takeWhile nonempty
    next hds =>
    simp only [hds, if_false]
    split at h
    · next heq =>
      rw [heq]
      simp only [parseOptExponent, Option.map_some']
      exact ⟨_, rfl⟩
    · next fs heq =>
      simp only [List.all_eq_true] at h
      have hdrop : fs.dropWhile isDecDigit = [] := List.dropWhile_eq_nil_iff.2 h
      rw [heq]
      simp only [hdrop, parseOptExponent, Option.map_some']
      exact ⟨_, rfl⟩
    · exact absurd h (by simp)

lemma splitSign_shape (cs : List Char) :
    cs = (splitSign cs).2 ∨ cs = '+' :: (splitSign cs).2 ∨ cs = '-' :: (splitSign cs).2 := by
  match cs with
  | [] => exact Or.inl rfl
  | c :: r =>
    by_cases h1 : c = '+'
    · subst h1; right; left; simp [splitSign]
    · by_cases h2 : c = '-'
      · subst h2; right; right; simp [splitSign, h1]
      · left; simp [splitSign, h1, h2]

lemma specNumericLiteral_chars {s : String} (h : specNumericLiteral s = true) :
    ∀ c ∈ s.toList, isDecDigit c = true ∨ c = '.' ∨ c = '+' ∨ c = '-' := by
  intro c hc
  unfold specNumericLiteral at h
  have hbody := specUnsigned_chars h
  rcases splitSign_shape s.toList with hsh | hsh | hsh <;> rw [hsh] at hc
  · rcases hbody c hc with hd | hd
    · exact Or.inl hd
    · exact Or.inr (Or.inl hd)
  · rcases List.mem_cons.1 hc with rfl | hc'
    · exact Or.inr (Or.inr (Or.inl rfl))
    · rcases hbody c hc' with hd | hd
      · exact Or.inl hd
      · exact Or.inr (Or.inl hd)
  · rcases List.mem_cons.1 hc with rfl | hc'
    · exact Or.inr (Or.inr (Or.inr rfl))
    · rcases hbody c hc' with hd | hd
      · exact Or.inl hd
      · exact Or.inr (Or.inl hd)

lemma specUnsigned_ne_nil {cs : List Char} (h : specUnsignedNumericLiteral cs = true) :
    cs ≠ [] := by
  rintro rfl
  exact absurd h (by decide)

lemma specNumericLiteral_ne_nil {s : String} (h : specNumericLiteral s = true) :
    s.toList ≠ [] := by
  intro hnil
  unfold specNumericLiteral at h
  rw [hnil] at h
  exact absurd h (by decide)

lemma nonLetter_of_digit_or_dot {x : Char} (h : isDecDigit x = true ∨ x = '.') :
    ¬(x = 'x' ∨ x = 'X') ∧ ¬(x = 'o' ∨ x = 'O') ∧ ¬(x = 'b' ∨ x = 'B') := by
  rcases h with h | rfl
  · refine ⟨?_, ?_, ?_⟩ <;> (rintro (rfl | rfl) <;> exact absurd h (by decide))
  · decide

lemma parseNonDecimal_of_spec {s : String} (h : specNumericLiteral s = true) :
    parseNonDecimal s.toList = none := by
  have hchars := specNumericLiteral_chars h
  match hm : s.toList with
  | [] => rfl
  | [c] => rfl
  | c0 :: x :: ds =>
    rw [hm] at hchars
    by_cases hc0 : c0 = '0'
    · subst hc0
      have hx : isDecDigit x = true ∨ x = '.' := by
        rcases hchars x (by simp) with hd | hd | hd | hd
        · exact Or.inl hd
        · exact Or.inr hd
        · -- x = '+' impossible: '+' may appear only first; but also directly:
          -- the body after an absent sign is '0' :: x :: ds and its chars are
          -- digits or dots
          subst hd
          unfold specNumericLiteral at h
          rw [hm] at h
          have : (splitSign ('0' :: '+' :: ds)).2 = '0' :: '+' :: ds := by
            simp [splitSign]
          rw [this] at h
          rcases specUnsigned_chars h '+' (by simp) with hd' | hd' <;> simp_all
        · subst hd
          unfold specNumericLiteral at h
          rw [hm] at h
          have : (splitSign ('0' :: '-' :: ds)).2 = '0' :: '-' :: ds := by
            simp [splitSign]
          rw [this] at h
          rcases specUnsigned_chars h '-' (by simp) with hd' | hd' <;> simp_all
      obtain ⟨h1, h2, h3⟩ := nonLetter_of_digit_or_dot hx
      simp [parseNonDecimal, h1, h2, h3]
    · simp [parseNonDecimal, hc0]

lemma NUMBER_ok_of_spec {s : String} (h : specNumericLiteral s = true) :
    ∃ q : ℚ, Arguments.NUMBER s = .ok (.num (.val q)) := by
  have htrim : trimJsWs s.toList = s.toList :=
    trimJsWs_eq_self (fun c hc => not_ws_of_litChar (specNumericLiteral_chars h c hc))
  have hne : s.toList ≠ [] := specNumericLiteral_ne_nil h
  have hnondec : parseNonDecimal s.toList = none := parseNonDecimal_of_spec h
  obtain ⟨q, hq⟩ := specUnsigned_parse
    (show specUnsignedNumericLiteral (splitSign s.toList).2 = true from h)
  have hjs : ∃ v : ℚ, jsToNumber s = .val v := by
    unfold jsToNumber
    simp only [htrim, List.isEmpty_eq_true, hne, if_false, hnondec]
    simp only [parseStrDecimalLiteral]
    rw [hq]
    simp only [Option.map_some', applySign]
    exact ⟨_, rfl⟩
  obtain ⟨v, hv⟩ := hjs
  refine ⟨v, ?_⟩
  unfold Arguments.NUMBER
  rw [hv]
  simp

lemma isArgument_eq_false_of_isLiteral {c : CommandNode} (h : c.isLiteral = true) :
    c.isArgument = false := by
  rcases c with ⟨k, cs, e, p⟩
  cases k <;> simp_all [CommandNode.isLiteral, CommandNode.isArgument]

lemma isLiteral_eq_false_of_isArgument {c : CommandNode} (h : c.isArgument = true) :
    c.isLiteral = false := by
  rcases c with ⟨k, cs, e, p⟩
  cases k <;> simp_all [CommandNode.isLiteral, CommandNode.isArgument]

lemma sortInsert_of_not_argument {x : CommandNode} (hx : x.isArgument = false)
    (l : List CommandNode) : sortInsert x l = x :: l := by
  cases l with
  | nil => rfl
  | cons y ys => simp [sortInsert, childLe, hx]

lemma sortInsert_of_all_not_literal {x : CommandNode} {l : List CommandNode}
    (hl : ∀ y ∈ l, y.isLiteral = false) : sortInsert x l = x :: l := by
  cases l with
  | nil => rfl
  | cons y ys => simp [sortInsert, childLe, hl y (by simp)]

lemma sortChildren_lits_first {dl : List CommandNode} (hdl : ∀ y ∈ dl, y.isLiteral = true) :
    ∀ X : List CommandNode, sortChildren (dl ++ X) = dl ++ sortChildren X := by
  induction dl with
  | nil => intro X; rfl
  | cons y dl' ih =>
    intro X
    have hy := hdl y (by simp)
    rw [List.cons_append, sortChildren, ih (fun z hz => hdl z (by simp [hz])) X,
      sortInsert_of_not_argument (isArgument_eq_false_of_isLiteral hy)]
    rfl

lemma sortChildren_args_append_lit {da : List CommandNode} {c : CommandNode}
    (hda : ∀ y ∈ da, y.isArgument = true) (hc : c.isLiteral = true) :
    sortChildren (da ++ [c]) = c :: da := by
  induction da with
  | nil =>
    rw [List.nil_append]
    show sortInsert c (sortChildren []) = [c]
    rfl
  | cons y da' ih =>
    have hy := hda y (by simp)
    rw [List.cons_append, sortChildren, ih (fun z hz => hda z (by simp [hz]))]
    show sortInsert y (c :: da') = c :: y :: da'
    have hle : childLe y c = false := by
      simp [childLe, hy, hc]
    rw [sortInsert, hle]
    simp only [Bool.false_eq_true, if_false]
    rw [sortInsert_of_all_not_literal
      (fun z hz => isLiteral_eq_false_of_isArgument (hda z (List.mem_cons_of_mem _ hz)))]

lemma sortChildren_args_append_arg {da : List CommandNode} {c : CommandNode}
    (hda : ∀ y ∈ da, y.isArgument = true) (hc : c.isArgument = true) :
    sortChildren (da ++ [c]) = da ++ [c] := by
  induction da with
  | nil => rfl
  | cons y da' ih =>
    rw [List.cons_append, sortChildren, ih (fun z hz => hda z (by simp [hz]))]
    have hall : ∀ z ∈ da' ++ [c], z.isLiteral = false := by
      intro z hz
      rcases List.mem_append.1 hz with hz' | hz'
      · exact isLiteral_eq_false_of_isArgument (hda z (by simp [hz']))
      · rcases List.mem_singleton.1 hz' with rfl
        exact isLiteral_eq_false_of_isArgument hc
    rw [sortInsert_of_all_not_literal hall]

lemma thenAll_mk (cs : List CommandNode) :
    ∀ (dl da : List CommandNode) (k : NodeKind) (e : Option Nat) (p : Option String),
      (∀ y ∈ dl, y.isLiteral = true) → (∀ y ∈ da, y.isArgument = true) →
      (∀ c ∈ cs, c.isLiteral = true ∨ c.isArgument = true) →
      CommandNode.thenAll (.mk k (dl ++ da) e p) cs =
        .mk k ((dl ++ cs.filter (·.isLiteral)) ++ (da ++ cs.filter (·.isArgument))) e p := by
  induction cs with
  | nil =>
    intro dl da k e p hdl hda hcs
    simp [CommandNode.thenAll]
  | cons c cs' ih =>
    intro dl da k e p hdl hda hcs
    have hstep : CommandNode.thenAll (.mk k (dl ++ da) e p) (c :: cs') =
        CommandNode.thenAll (.mk k (sortChildren ((dl ++ da) ++ [c])) e p) cs' := rfl
    rw [hstep, List.append_assoc]
    rcases hcs c (by simp) with hlit | harg
    · rw [sortChildren_lits_first hdl, sortChildren_args_append_lit hda hlit]
      have : dl ++ c :: da = (dl ++ [c]) ++ da := by simp
      rw [this, ih (dl ++ [c]) da k e p
        (by intro y hy; rcases List.mem_append.1 hy with hy' | hy'
            · exact hdl y hy'
            · rcases List.mem_singleton.1 hy' with rfl; exact hlit)
        hda (fun z hz => hcs z (by simp [hz]))]
      have hfl : (c :: cs').filter (·.isLiteral) = c :: cs'.filter (·.isLiteral) := by
        simp [List.filter_cons, hlit]
      have hfa : (c :: cs').filter (·.isArgument) = cs'.filter (·.isArgument) := by
        simp [List.filter_cons, isArgument_eq_false_of_isLiteral hlit]
      rw [hfl, hfa]
      simp
    · rw [sortChildren_lits_first hdl, sortChildren_args_append_arg hda harg]
      have : dl ++ (da ++ [c]) = dl ++ (da ++ [c]) := rfl
      rw [ih dl (da ++ [c]) k e p hdl
        (by intro y hy; rcases List.mem_append.1 hy with hy' | hy'
            · exact hda y hy'
            · rcases List.mem_singleton.1 hy' with rfl; exact harg)
        (fun z hz => hcs z (by simp [hz]))]
      have hfl : (c :: cs').filter (·.isLiteral) = cs'.filter (·.isLiteral) := by
        simp [List.filter_cons, isLiteral_eq_false_of_isArgument harg]
      have hfa : (c :: cs').filter (·.isArgument) = c :: cs'.filter (·.isArgument) := by
        simp [List.filter_cons, harg]
      rw [hfl, hfa]
      simp

-- C4 amended
lemma parse_permission_denied {node : CommandNode} {p : String} {src : CommandSource}
    (hperm : node.permission = some p) (hne : p ≠ "") (hsrc : src.hasPermission p = false)
    (nodes : List String) (args : List JsValue) :
    node.parse nodes src args = ⟨false, nodes, [.fail "Permission denied"]⟩ := by
  have hgate : permissionGate node.permission src = true := by
    rw [hperm]
    simp [permissionGate, hne, hsrc]
  cases nodes with
  | nil =>
    rw [CommandNode.parse]
    show parseStep src _ node [] args = _
    rw [parseStep, hgate]
    simp
  | cons n ns =>
    rw [CommandNode.parse]
    show parseStep src _ node (n :: ns) args = _
    rw [parseStep, hgate]
    simp

-- C2 helpers
lemma litName_isLiteral {c : CommandNode} {t : String} (h : (c.litName == some t) = true) :
    c.isLiteral = true := by
  rcases c with ⟨k, cs, e, p⟩
  cases k <;> simp_all [CommandNode.litName, CommandNode.isLiteral]

lemma find?_filter_of_imp {p q : CommandNode → Bool}
    (himp : ∀ c, p c = true → q c = true) :
    ∀ l : List CommandNode, l.find? p = (l.filter q).find? p := by
  intro l
  induction l with
  | nil => rfl
  | cons c cs ih =>
    by_cases hp : p c = true
    · rw [List.find?_cons_of_pos _ hp, List.filter_cons_of_pos (himp c hp),
        List.find?_cons_of_pos _ hp]
    · rw [List.find?_cons_of_neg _ hp]
      by_cases hq : q c = true
      · rw [List.filter_cons_of_pos hq, List.find?_cons_of_neg _ hp, ih]
      · rw [List.filter_cons_of_neg (by simpa using hq), ih]

lemma parseChildrenGo_first_literal
    {recur : CommandNode → List String → List JsValue → ParseResult}
    {t : String} {L : CommandNode} :
    ∀ (lits rest : List CommandNode) (nodes : List String) (args : List JsValue),
      (∀ y ∈ lits, y.isLiteral = true) →
      lits.find? (fun c => c.litName == some t) = some L →
      parseChildrenGo recur (lits ++ rest) t nodes args = recur L nodes args := by
  intro lits
  induction lits with
  | nil => intro rest nodes args _ hfind; simp at hfind
  | cons y lits' ih =>
    intro rest nodes args hlits hfind
    have hy := hlits y (by simp)
    rcases hky : y.kind with _ | nm | nmd
    · rcases y with ⟨k, cs, e, p⟩; simp [CommandNode.kind] at hky; subst hky
      simp [CommandNode.isLiteral] at hy
    · -- literal child
      rw [List.cons_append, parseChildrenGo, hky]
      by_cases hname : nm = t
      · subst hname
        have : (y.litName == some nm) = true := by
          rcases y with ⟨k, cs, e, p⟩
          simp [CommandNode.kind] at hky
          subst hky
          simp [CommandNode.litName]
        rw [List.find?_cons_of_pos (p := fun c : CommandNode => c.litName == some nm) _ this] at hfind
        rcases Option.some.inj hfind with rfl
        simp
      · have : (y.litName == some t) = false := by
          rcases y with ⟨k, cs, e, p⟩
          simp [CommandNode.kind] at hky
          subst hky
          simp [CommandNode.litName, hname]
        rw [List.find?_cons_of_neg (p := fun c : CommandNode => c.litName == some t) _ (by simp [this])] at hfind
        simp only [hname, if_false]
        exact ih rest nodes args (fun z hz => hlits z (by simp [hz])) hfind
    · rcases y with ⟨k, cs, e, p⟩; simp [CommandNode.kind] at hky; subst hky
      simp [CommandNode.isLiteral] at hy

lemma all_filter_isLiteral (cs : List CommandNode) :
    ∀ y ∈ cs.filter (·.isLiteral), y.isLiteral = true := by
  intro y hy
  simpa using (List.mem_filter.1 hy).2

lemma c2core {cs : List CommandNode} {t : String} {L : CommandNode}
    (hall : ∀ c ∈ cs, c.isLiteral = true ∨ c.isArgument = true)
    (hfind : cs.find? (fun c => c.litName == some t) = some L)
    (nodes : List String) (src : CommandSource) (args : List JsValue)
    (hlast : nodes.getLast? = some t) :
    (CommandNode.thenAll CommandNode.new cs).parse nodes src args
      = L.parse nodes.dropLast src args ∧ L.isLiteral = true := by
  have hLlit : L.isLiteral = true :=
    litName_isLiteral (List.find?_some (p := fun c : CommandNode => c.litName == some t) hfind)
  refine ⟨?_, hLlit⟩
  have hnode : CommandNode.thenAll CommandNode.new cs =
      .mk .plain (cs.filter (·.isLiteral) ++ cs.filter (·.isArgument)) none none := by
    have h := thenAll_mk cs [] [] .plain none none (by simp) (by simp) hall
    simpa [CommandNode.new] using h
  have hne : nodes ≠ [] := by rintro rfl; simp at hlast
  obtain ⟨k, hk⟩ : ∃ k, nodes.length = k + 1 := by
    rcases nodes with _ | ⟨n, ns⟩
    · exact absurd rfl hne
    · exact ⟨ns.length, rfl⟩
  have hfindf : (cs.filter (·.isLiteral)).find? (fun c => c.litName == some t) = some L := by
    rw [← find?_filter_of_imp (fun c hc => litName_isLiteral hc) cs]
    exact hfind
  have hmem : L ∈ cs.filter (·.isLiteral) := List.mem_of_find?_eq_some hfindf
  have hchne : (cs.filter (·.isLiteral) ++ cs.filter (·.isArgument)).isEmpty = false := by
    rcases h : cs.filter (·.isLiteral) with _ | ⟨a, b⟩
    · rw [h] at hmem; simp at hmem
    · rw [h]; rfl
  rw [hnode, CommandNode.parse, hk]
  show parseStep src (parseFuel src k) _ nodes args = _
  rw [parseStep]
  have hgate : permissionGate (CommandNode.mk .plain
      (cs.filter (·.isLiteral) ++ cs.filter (·.isArgument)) none none).permission src
      = false := rfl
  rw [hgate]
  simp only [Bool.false_eq_true, if_false, List.isEmpty_eq_true, hne, hlast,
    CommandNode.children, hchne]
  rw [parseChildrenGo_first_literal (cs.filter (·.isLiteral)) (cs.filter (·.isArgument))
    nodes.dropLast args (all_filter_isLiteral cs) hfindf]
  rw [CommandNode.parse, List.length_dropLast, hk]
  simp

lemma isArgument_false_of_kind_plain {c : CommandNode} (h : c.kind = .plain) :
    c.isArgument = false := by
  rcases c with ⟨k, cs, e, p⟩
  simp [CommandNode.kind] at h
  subst h
  rfl

lemma isArgument_false_of_kind_literal {c : CommandNode} {nm : String}
    (h : c.kind = .literal nm) : c.isArgument = false := by
  rcases c with ⟨k, cs, e, p⟩
  simp [CommandNode.kind] at h
  subst h
  rfl

lemma isArgument_true_of_kind_argument {c : CommandNode} {nm : String}
    {dec : String → Except String JsValue} (h : c.kind = .argument nm dec) :
    c.isArgument = true := by
  rcases c with ⟨k, cs, e, p⟩
  simp [CommandNode.kind] at h
  subst h
  rfl

lemma litName_of_kind_literal {c : CommandNode} {nm : String} (h : c.kind = .literal nm) :
    c.litName = some nm := by
  rcases c with ⟨k, cs, e, p⟩
  simp [CommandNode.kind] at h
  subst h
  rfl

lemma decode_of_kind_argument {c : CommandNode} {nm : String}
    {dec : String → Except String JsValue} (h : c.kind = .argument nm dec) :
    c.decode = dec := by
  rcases c with ⟨k, cs, e, p⟩
  simp [CommandNode.kind] at h
  subst h
  rfl

lemma c8core {children : List CommandNode}
    (hlit : ∀ c ∈ children, c.litName ≠ some "")
    (recur : CommandNode → List String → List JsValue → ParseResult)
    (nodes : List String) (args : List JsValue) :
    parseChildrenGo recur children "" nodes args =
      match children.find? (·.isArgument) with
      | none => ⟨false, nodes, []⟩
      | some a =>
        match a.decode "" with
        | .ok v => recur a nodes (args ++ [v])
        | .error msg => ⟨false, nodes, [.fail msg]⟩ := by
  induction children with
  | nil => rfl
  | cons c cs ih =>
    rcases hkc : c.kind with _ | nm | ⟨nm, dec⟩
    · rw [List.find?_cons_of_neg _ (by simp [isArgument_false_of_kind_plain hkc])]
      rw [show parseChildrenGo recur (c :: cs) "" nodes args =
          (match c.kind with
           | .literal name =>
             if name = "" then recur c nodes args else parseChildrenGo recur cs "" nodes args
           | .argument _ dec =>
             match dec "" with
             | .ok v => recur c nodes (args ++ [v])
             | .error msg => ⟨false, nodes, [.fail msg]⟩
           | .plain => parseChildrenGo recur cs "" nodes args) from rfl, hkc]
      exact ih (fun z hz => hlit z (by simp [hz]))
    · have hnm : nm ≠ "" := by
        intro h
        exact hlit c (by simp) (h ▸ litName_of_kind_literal hkc)
      rw [List.find?_cons_of_neg _ (by simp [isArgument_false_of_kind_literal hkc])]
      rw [show parseChildrenGo recur (c :: cs) "" nodes args =
          (match c.kind with
           | .literal name =>
             if name = "" then recur c nodes args else parseChildrenGo recur cs "" nodes args
           | .argument _ dec =>
             match dec "" with
             | .ok v => recur c nodes (args ++ [v])
             | .error msg => ⟨false, nodes, [.fail msg]⟩
           | .plain => parseChildrenGo recur cs "" nodes args) from rfl, hkc]
      simp only [hnm, if_false]
      exact ih (fun z hz => hlit z (by simp [hz]))
    · rw [List.find?_cons_of_pos _ (by simp [isArgument_true_of_kind_argument hkc])]
      rw [show parseChildrenGo recur (c :: cs) "" nodes args =
          (match c.kind with
           | .literal name =>
             if name = "" then recur c nodes args else parseChildrenGo recur cs "" nodes args
           | .argument _ dec =>
             match dec "" with
             | .ok v => recur c nodes (args ++ [v])
             | .error msg => ⟨false, nodes, [.fail msg]⟩
           | .plain => parseChildrenGo recur cs "" nodes args) from rfl, hkc]
      have hd : c.decode "" = dec "" := by rw [decode_of_kind_argument hkc]
      show (match dec "" with
            | .ok v => recur c nodes (args ++ [v])
            | .error msg => (⟨false, nodes, [.fail msg]⟩ : ParseResult)) =
          (match c.decode "" with
            | .ok v => recur c nodes (args ++ [v])
            | .error msg => ⟨false, nodes, [.fail msg]⟩)
      rw [hd]

/-- The two trace facts claimed of the engine: it never emits `success`, and
a returned `true` is witnessed by a handler invocation in the trace. -/
def ParseResult.traceOk (r : ParseResult) : Prop :=
  (∀ msg, Event.success msg ∉ r.events) ∧
  (r.ok = true → ∃ h a, Event.invoked h a ∈ r.events)

lemma traceOk_of_events_eq {r : ParseResult} {ok : Bool} {tok : List String}
    {evs : List Event} (h : r = ⟨ok, tok, evs⟩)
    (h1 : ∀ msg, Event.success msg ∉ evs)
    (h2 : ok = true → ∃ hid a, Event.invoked hid a ∈ evs) : r.traceOk := by
  subst h
  exact ⟨h1, h2⟩

lemma go_traceOk {recur : CommandNode → List String → List JsValue → ParseResult}
    (hrec : ∀ c n a, (recur c n a).traceOk) :
    ∀ (children : List CommandNode) (t : String) (nodes : List String) (args : List JsValue),
      (parseChildrenGo recur children t nodes args).traceOk := by
  intro children
  induction children with
  | nil =>
    intro t nodes args
    exact ⟨by simp [parseChildrenGo], by simp [parseChildrenGo]⟩
  | cons c cs ih =>
    intro t nodes args
    rcases hkc : c.kind with _ | nm | ⟨nm, dec⟩ <;>
      rw [show parseChildrenGo recur (c :: cs) t nodes args =
          (match c.kind with
           | .literal name =>
             if name = t then recur c nodes args else parseChildrenGo recur cs t nodes args
           | .argument _ dec =>
             match dec t with
             | .ok v => recur c nodes (args ++ [v])
             | .error msg => ⟨false, nodes, [.fail msg]⟩
           | .plain => parseChildrenGo recur cs t nodes args) from rfl, hkc]
    · exact ih t nodes args
    · by_cases hnm : nm = t
      · simp only [hnm, if_true]
        exact hrec c nodes args
      · simp only [hnm, if_false]
        exact ih t nodes args
    · show (match dec t with
            | .ok v => recur c nodes (args ++ [v])
            | .error msg => (⟨false, nodes, [.fail msg]⟩ : ParseResult)).traceOk
      rcases hdec : dec t with emsg | v
      · exact ⟨by simp, by simp⟩
      · exact hrec c nodes (args ++ [v])

lemma step_traceOk {src : CommandSource}
    {recur : CommandNode → List String → List JsValue → ParseResult}
    (hrec : ∀ c n a, (recur c n a).traceOk)
    (node : CommandNode) (nodes : List String) (args : List JsValue) :
    (parseStep src recur node nodes args).traceOk := by
  rw [parseStep]
  split
  · exact ⟨by simp, by simp⟩
  · split
    · split
      · next h hexec => exact ⟨by simp, fun _ => ⟨h, args, by simp⟩⟩
      · exact ⟨by simp, by simp⟩
    · split
      · exact ⟨by simp, by simp⟩
      · split
        · exact ⟨by simp, by simp⟩
        · exact go_traceOk hrec _ _ _ _

lemma fuel_traceOk (src : CommandSource) :
    ∀ (fuel : Nat) (node : CommandNode) (nodes : List String) (args : List JsValue),
      (parseFuel src fuel node nodes args).traceOk := by
  intro fuel
  induction fuel with
  | zero => exact step_traceOk (fun c n a => ⟨by simp, by simp⟩)
  | succ fuel ih => exact step_traceOk ih

lemma parse_traceOk (node : CommandNode) (nodes : List String) (src : CommandSource)
    (args : List JsValue) : (node.parse nodes src args).traceOk :=
  fuel_traceOk src nodes.length node nodes args

lemma executeLoop_traceOk (roots : List (String × CommandNode)) (nodes : List String)
    (src : CommandSource) : (executeLoop roots nodes src).traceOk := by
  induction roots generalizing nodes with
  | nil => exact ⟨by simp [executeLoop], by simp [executeLoop]⟩
  | cons kv rest ih =>
    rcases kv with ⟨k, root⟩
    rw [show executeLoop ((k, root) :: rest) nodes src =
        (let rev := nodes.reverse
         let r := root.parse rev src []
         if r.ok then ⟨true, r.tokens, r.events⟩
         else
           let r2 := executeLoop rest r.tokens src
           ⟨r2.ok, r2.tokens, r.events ++ r2.events⟩) from rfl]
    simp only []
    split
    · next hok =>
      obtain ⟨h1, h2⟩ := parse_traceOk root nodes.reverse src []
      exact ⟨h1, fun _ => h2 hok⟩
    · obtain ⟨h1, h2⟩ := parse_traceOk root nodes.reverse src []
      obtain ⟨g1, g2⟩ := ih ((root.parse nodes.reverse src []).tokens)
      refine ⟨?_, ?_⟩
      · intro msg hmem
        rcases List.mem_append.1 hmem with hm | hm
        · exact h1 msg hm
        · exact g1 msg hm
      · intro hok
        obtain ⟨hid, a, ha⟩ := g2 hok
        exact ⟨hid, a, List.mem_append.2 (Or.inr ha)⟩

lemma execute_traceOk (m : CommandManager) (src : CommandSource) (cmd : String) :
    (∀ msg, Event.success msg ∉ (m.execute src cmd).2) ∧
    ((m.execute src cmd).2.all (fun e => !e.isInvoked) = true →
      ∃ msg, Event.fail msg ∈ (m.execute src cmd).2) := by
  rw [CommandManager.execute]
  split
  · exact ⟨by simp, fun _ => ⟨"Invalid command", by simp⟩⟩
  · simp only []
    split
    · next hok =>
      obtain ⟨h1, h2⟩ := executeLoop_traceOk m.roots
        (jsSplitSpace (String.mk (cmd.toList.drop m.prefixStr.toList.length))) src
      refine ⟨h1, ?_⟩
      intro hall
      exfalso
      obtain ⟨hid, a, ha⟩ := h2 hok
      have hx := List.all_eq_true.1 hall _ ha
      simp [Event.isInvoked] at hx
    · obtain ⟨h1, h2⟩ := executeLoop_traceOk m.roots
        (jsSplitSpace (String.mk (cmd.toList.drop m.prefixStr.toList.length))) src
      refine ⟨?_, ?_⟩
      · intro msg hmem
        rcases List.mem_append.1 hmem with hm | hm
        · exact h1 msg hm
        · simp at hm
      · intro _
        exact ⟨"Invalid command", List.mem_append.2 (Or.inr (by simp))⟩

lemma execute_fst (m : CommandManager) (src : CommandSource) (cmd : String) :
    (m.execute src cmd).1 = m := by
  rw [CommandManager.execute]
  split
  · rfl
  · simp only []
    split <;> rfl

/-! ## Concrete scenarios used by the claim theorems -/

/-- A source granting every permission. -/
def srcAll : CommandSource := ⟨"player", fun _ => true⟩

/-- A source granting no permission. -/
def srcNone : CommandSource := ⟨"user", fun _ => false⟩

/-- `literal "tp" → argument "x" NUMBER → argument "y" NUMBER → handler 1`. -/
def tpTree : CommandNode :=
  (CommandManager.literal "tp").thenNode
    ((CommandManager.argument "x" Arguments.NUMBER).thenNode
      ((CommandManager.argument "y" Arguments.NUMBER).execute 1))

def mTp : CommandManager := (CommandManager.create "/").register "gugle-command" tpTree

/-- Namespaces `a` (handler 1) then `b` (handler 2), both on literal `ping`. -/
def mAB : CommandManager :=
  (((CommandManager.create "/").register "a" ((CommandManager.literal "ping").execute 1)).register
    "b" ((CommandManager.literal "ping").execute 2))

/-- Namespace `a` holds only literal `foo`; namespace `b` holds literal
`ping` with handler 20. -/
def mShared : CommandManager :=
  (((CommandManager.create "/").register "a" ((CommandManager.literal "foo").execute 10)).register
    "b" ((CommandManager.literal "ping").execute 20))

def mBOnly : CommandManager :=
  (CommandManager.create "/").register "b" ((CommandManager.literal "ping").execute 20)

/-- A node whose permission was set to the empty string by `require("")`. -/
def c4permNode : CommandNode := (CommandNode.new.require "").execute 7

/-- A node obtained from `require("admin")` with a handler attached. -/
def c4adminNode : CommandNode := (CommandNode.new.require "admin").execute 7

/-- A parent with a literal child whose name is the empty string. -/
def c8emptyLitParent : CommandNode :=
  CommandNode.new.thenNode ((CommandManager.literal "").execute 3)

def c8children : List CommandNode :=
  [CommandManager.literal "x", CommandManager.argument "n" Arguments.NUMBER]

def c8recur : CommandNode → List String → List JsValue → ParseResult :=
  fun _ n a => ⟨true, n, [.invoked 99 a]⟩

def c2cs : List CommandNode :=
  [CommandManager.argument "n" Arguments.NUMBER, (CommandManager.literal "a").execute 5]

def c2lit : CommandNode := (CommandManager.literal "a").execute 5

def c7cs : List CommandNode :=
  [CommandManager.argument "n" Arguments.NUMBER, CommandManager.literal "a",
    CommandManager.argument "s" Arguments.STRING, CommandManager.literal "b"]

/-! ## Claim theorems -/

/-- Claim C1 (code bug evidence): `execute` does NOT hand each namespace a
fresh copy of the reversed token list — `nodes.reverse()` reverses the shared
array in place — so after namespace `a` (holding only literal `foo`) pops
`ping` and fails, namespace `b`, which holds a fully matching `ping` handler
(handler 20), receives an empty token list: executing `/ping` reports
`Invalid command` twice and never invokes handler 20, although namespace `b`
alone would dispatch `/ping` to handler 20. -/
theorem c1_namespaces_share_token_array :
    (mShared.execute srcAll "/ping").2 = [.fail "Invalid command", .fail "Invalid command"]
    ∧ (∀ args, Event.invoked 20 args ∉ (mShared.execute srcAll "/ping").2)
    ∧ (mBOnly.execute srcAll "/ping").2 = [.invoked 20 []] := by
  refine ⟨by decide, ?_, by decide⟩
  intro args
  have h : (mShared.execute srcAll "/ping").2
      = [.fail "Invalid command", .fail "Invalid command"] := by decide
  rw [h]
  simp

/-- Claim C2: in a node built by `then` calls from literal and argument
children among which some literal child is named `t`, parsing a token list
whose next popped token is `t` descends into the first such literal child
(which is a literal, not an argument node), whatever position the argument
children were attached at. -/
theorem c2_literal_wins_over_argument {cs : List CommandNode} {t : String}
    {L : CommandNode}
    (hall : ∀ c ∈ cs, c.isLiteral = true ∨ c.isArgument = true)
    (hfind : cs.find? (fun c => c.litName == some t) = some L)
    (nodes : List String) (src : CommandSource) (args : List JsValue)
    (hlast : nodes.getLast? = some t) :
    (CommandNode.thenAll CommandNode.new cs).parse nodes src args
      = L.parse nodes.dropLast src args ∧ L.isLiteral = true :=
  c2core hall hfind nodes src args hlast

/-- Claim C2 witness: the argument child is attached before the literal child
named `a`, yet the token `a` descends into the literal child. -/
theorem c2_literal_wins_over_argument_witness :
    (CommandNode.thenAll CommandNode.new c2cs).parse ["a"] srcAll []
      = c2lit.parse [] srcAll [] ∧ c2lit.isLiteral = true :=
  c2_literal_wins_over_argument (t := "a") (by decide) (by rfl) ["a"] srcAll [] (by rfl)

/-- Claim C3 counterexample: `Number("")` is `0`, not `NaN`, so
`Arguments.NUMBER` succeeds on the empty-string token although that token is
not a numeric literal (integer or floating point, optional sign). -/
theorem c3_number_accepts_empty_token :
    Arguments.NUMBER "" = .ok (.num (.val 0)) ∧ specNumericLiteral "" = false := by
  decide

/-- Claim C3 (amended): `Arguments.NUMBER` succeeds exactly on the tokens
whose JS `Number` conversion is not `NaN` — a set that contains every numeric
literal (integer or floating point, optional sign) but also, e.g., the empty
string — returning the converted value, and throws the malformed-number error
carrying the token on every token converting to `NaN` (in particular it
always rejects tokens that parse to the not-a-number sentinel). -/
theorem c3_number_decode_domain (s : String) :
    (specNumericLiteral s = true → ∃ q : ℚ, Arguments.NUMBER s = .ok (.num (.val q)))
    ∧ (jsToNumber s = .nan → Arguments.NUMBER s = .error ("Invalid number " ++ s))
    ∧ (∀ v, Arguments.NUMBER s = .ok v → jsToNumber s ≠ .nan ∧ v = .num (jsToNumber s)) := by
  refine ⟨fun h => NUMBER_ok_of_spec h, fun h => ?_, fun v hv => ?_⟩
  · simp only [Arguments.NUMBER, h, if_true]
  · by_cases hn : jsToNumber s = .nan
    · simp only [Arguments.NUMBER, hn, if_true] at hv
      exact absurd hv (by simp)
    · simp only [Arguments.NUMBER, hn, if_false] at hv
      refine ⟨hn, ?_⟩
      exact (Except.ok.inj hv).symm

/-- Claim C3 witness: the decimal token `10` decodes to a value, and the
token `NaN` (whose conversion is the not-a-number sentinel) is rejected with
the malformed-number message. -/
theorem c3_number_decode_domain_witness :
    (∃ q : ℚ, Arguments.NUMBER "10" = .ok (.num (.val q)))
    ∧ Arguments.NUMBER "NaN" = .error ("Invalid number " ++ "NaN") :=
  ⟨(c3_number_decode_domain "10").1 (by decide),
    (c3_number_decode_domain "NaN").2.1 (by decide)⟩

/-- Claim C4 counterexample: `require("")` sets the permission, yet the gate
`this.permission && ...` treats the empty string as falsy, so a source with
no permissions still reaches the handler: no `Permission denied` is reported
and handler 7 runs. -/
theorem c4_empty_permission_skips_gate :
    c4permNode.permission = some "" ∧ srcNone.hasPermission "" = false ∧
    c4permNode.parse [] srcNone [] = ⟨true, [], [.invoked 7 []]⟩ :=
  ⟨rfl, rfl, by decide⟩

/-- Claim C4 (amended): for every node whose `require(p)` permission is a
NONEMPTY string and every source denying `p`, `parse` reports exactly
`Permission denied`, returns `false`, leaves the token array untouched, and
emits no other event — in particular it never invokes the handler or
descends into children, whatever the remaining tokens are. -/
theorem c4_permission_denied_blocks {node : CommandNode} {p : String}
    {src : CommandSource} (hperm : node.permission = some p) (hne : p ≠ "")
    (hsrc : src.hasPermission p = false) (nodes : List String) (args : List JsValue) :
    node.parse nodes src args = ⟨false, nodes, [.fail "Permission denied"]⟩ :=
  parse_permission_denied hperm hne hsrc nodes args

/-- Claim C4 witness: a `require("admin")` node with a handler, a source
denying `admin`, and a token list. -/
theorem c4_permission_denied_blocks_witness :
    c4adminNode.parse ["x"] srcNone [] = ⟨false, ["x"], [.fail "Permission denied"]⟩ :=
  @c4_permission_denied_blocks c4adminNode "admin" srcNone rfl (by decide) (by decide) ["x"] []

/-- Claim C5: with prefix `/` and the registered tree
`tp → x:NUMBER → y:NUMBER → handler 1`, `/tp 10 20` invokes the handler on
`(10, 20)`; `/tp foo 20` reports `Invalid number foo` (and then the top-level
`Invalid command`) without invoking the handler; `/tp 10` reports
`Invalid command` without invoking the handler. -/
theorem c5_tp_scenario :
    (mTp.execute srcAll "/tp 10 20").2 = [.invoked 1 [.num (.val 10), .num (.val 20)]]
    ∧ (mTp.execute srcAll "/tp foo 20").2
        = [.fail "Invalid number foo", .fail "Invalid command"]
    ∧ (mTp.execute srcAll "/tp 10").2 = [.fail "Invalid command", .fail "Invalid command"] := by
  refine ⟨by decide, by decide, by decide⟩

/-- Claim C6: namespaces `a` (registered first, handler 1) and `b`
(handler 2) both register literal `ping`: `/ping` invokes handler 1; the
result is the same whatever tree namespace `b` holds (so namespace `b` is
never attempted); after `remove("a")`, `/ping` invokes handler 2. -/
theorem c6_namespace_priority :
    (mAB.execute srcAll "/ping").2 = [.invoked 1 []]
    ∧ (∀ nb : CommandNode,
        ((((CommandManager.create "/").register "a"
            ((CommandManager.literal "ping").execute 1)).register "b" nb).execute
          srcAll "/ping").2 = [.invoked 1 []])
    ∧ ((mAB.remove "a").execute srcAll "/ping").2 = [.invoked 2 []] :=
  ⟨by decide, fun _ => rfl, by decide⟩

/-- Claim C7: attaching any sequence of literal/argument children by `then`
to a fresh node leaves the children stably partitioned — the literal children
in attachment order, followed by the argument children in attachment order —
and `then` returns the parent itself: only the children change, while the
node's variant, handler, and permission are untouched. -/
theorem c7_then_ordering_invariant :
    (∀ cs : List CommandNode, (∀ c ∈ cs, c.isLiteral = true ∨ c.isArgument = true) →
      (CommandNode.thenAll CommandNode.new cs).children
        = cs.filter (·.isLiteral) ++ cs.filter (·.isArgument))
    ∧ (∀ n c : CommandNode, (n.thenNode c).kind = n.kind ∧ (n.thenNode c).exec = n.exec
        ∧ (n.thenNode c).permission = n.permission) := by
  constructor
  · intro cs hall
    have h := thenAll_mk cs [] [] .plain none none (by simp) (by simp) hall
    have hnew : CommandNode.new = CommandNode.mk .plain ([] ++ []) none none := rfl
    rw [hnew, h]
    simp [CommandNode.children]
  · intro n c
    rcases n with ⟨k, ch, e, p⟩
    exact ⟨rfl, rfl, rfl⟩

/-- Claim C7 witness: a mixed attachment order
(argument, literal, argument, literal) ends up with the two literals first,
each group in attachment order. -/
theorem c7_then_ordering_invariant_witness :
    (CommandNode.thenAll CommandNode.new c7cs).children
      = c7cs.filter (·.isLiteral) ++ c7cs.filter (·.isArgument) :=
  c7_then_ordering_invariant.1 c7cs (by decide)

/-- Claim C8 counterexample: an empty-string token DOES match a literal child
whose name is the empty string: parsing `[""]` descends into the literal
child and runs its handler 3. -/
theorem c8_empty_name_literal_matches_empty_token :
    c8emptyLitParent.parse [""] srcAll [] = ⟨true, [], [.invoked 3 []]⟩ := by
  decide

/-- Claim C8 (amended): in the child loop, an empty-string token matches no
literal child whose name is nonempty: with all literal children nonempty, the
loop behaves as if only the first argument child existed — no argument child
means a silent dead end, otherwise the token is consumed by that argument
child exactly when its decoder accepts the empty string, else its decode
error is reported. -/
theorem c8_empty_token_skips_nonempty_literals {children : List CommandNode}
    (hlit : ∀ c ∈ children, c.litName ≠ some "")
    (recur : CommandNode → List String → List JsValue → ParseResult)
    (nodes : List String) (args : List JsValue) :
    parseChildrenGo recur children "" nodes args =
      match children.find? (·.isArgument) with
      | none => ⟨false, nodes, []⟩
      | some a =>
        match a.decode "" with
        | .ok v => recur a nodes (args ++ [v])
        | .error msg => ⟨false, nodes, [.fail msg]⟩ :=
  c8core hlit recur nodes args

/-- Claim C8 witness: a literal child named `x` and a NUMBER argument child;
on the empty token the literal is skipped and the argument child's decoder
receives the empty string (which NUMBER accepts as `0`). -/
theorem c8_empty_token_skips_nonempty_literals_witness :
    parseChildrenGo c8recur c8children "" ["r"] [] =
      match c8children.find? (·.isArgument) with
      | none => ⟨false, ["r"], []⟩
      | some a =>
        match a.decode "" with
        | .ok v => c8recur a ["r"] ([] ++ [v])
        | .error msg => ⟨false, ["r"], [.fail msg]⟩ :=
  c8_empty_token_skips_nonempty_literals (by decide) c8recur ["r"] []

/-- Claim C9: the engine itself never calls `source.success` (handlers are
opaque events in the model, matching the claim's hypothesis that they do not
call `success`), and whenever a dispatch fails — no handler invocation
appears in the trace — `source.fail` was called at least once. -/
theorem c9_no_success_and_fail_on_failure (m : CommandManager) (src : CommandSource)
    (cmd : String) :
    (∀ msg, Event.success msg ∉ (m.execute src cmd).2)
    ∧ ((m.execute src cmd).2.all (fun e => !e.isInvoked) = true →
        ∃ msg, Event.fail msg ∈ (m.execute src cmd).2) :=
  execute_traceOk m src cmd

/-- Claim C9 witness: a prefix-less command on an empty manager fails and the
trace contains a `fail` call and no `success`. -/
theorem c9_no_success_and_fail_on_failure_witness :
    (∀ msg, Event.success msg ∉ (((CommandManager.create "/")).execute srcAll "x").2)
    ∧ ∃ msg, Event.fail msg ∈ (((CommandManager.create "/")).execute srcAll "x").2 :=
  ⟨(c9_no_success_and_fail_on_failure (CommandManager.create "/") srcAll "x").1,
    (c9_no_success_and_fail_on_failure (CommandManager.create "/") srcAll "x").2 (by decide)⟩

/-- Claim C10: `execute` never mutates the manager — the post-state equals
the pre-state, so the namespaces, root nodes, and every node's children,
handler and permission are unchanged whether dispatch succeeds or fails
(handlers are modelled as events and thus cannot mutate the tree, matching
the claim's hypothesis). -/
theorem c10_execute_preserves_tree (m : CommandManager) (src : CommandSource)
    (cmd : String) : (m.execute src cmd).1 = m :=
  execute_fst m src cmd
